import Mathlib

/-!
Shallow embedding of the `avcompat` Crestron XSIG / ISC codec
(`crestron_xsig.go`) and verification of its specification claims.

Bytes are modelled as `Nat`; Go `byte(e)` conversions that are not already
guaranteed below 256 by a preceding mask are rendered as `% 256`, and Go
`uint16` arithmetic is rendered with explicit `% 65536` at each operation
that can overflow 16 bits.  The `bufio.Reader` wrapped by `ISCDecoder` is
modelled as the list of bytes remaining in the stream.
-/

namespace Avcompat

instance {ε α : Type} [DecidableEq ε] [DecidableEq α] : DecidableEq (Except ε α) := fun a b => by
  cases a <;> cases b
  case error.error e f =>
    exact if h : e = f then .isTrue (by rw [h]) else .isFalse (by intro c; injection c; exact h (by assumption))
  case error.ok _ _ => exact .isFalse (by intro c; exact Except.noConfusion c)
  case ok.error _ _ => exact .isFalse (by intro c; exact Except.noConfusion c)
  case ok.ok x y =>
    exact if h : x = y then .isTrue (by rw [h]) else .isFalse (by intro c; injection c; exact h (by assumption))

/-- Go error values returned by the MarshalBinary functions
(`ErrIndexRange`, `ErrSerialLength`, `ErrSerialInvalidByte`). -/
inductive MarshalErr where
  | indexRange
  | serialLength
  | serialInvalidByte
  deriving DecidableEq, Repr

/-- Go error values returned by the UnmarshalBinary functions
(`ErrDecodeLength`, `ErrDecodeIllegal`). -/
inductive UnmarshalErr where
  | decodeLength
  | decodeIllegal
  deriving DecidableEq, Repr

/-- Errors observable from `ISCDecoder.Decode`: a decode error propagated
from an UnmarshalBinary call, `io.EOF` from `Peek`/`ReadBytes`, or
`io.ErrUnexpectedEOF` from `io.ReadFull`. -/
inductive DecodeErr where
  | eof
  | unexpectedEOF
  | decodeLength
  | decodeIllegal
  deriving DecidableEq, Repr

/-- Mapping of an UnmarshalBinary error to the error surfaced by `Decode`
(the Go code returns the same error value unchanged). -/
def UnmarshalErr.toDecodeErr : UnmarshalErr → DecodeErr
  | .decodeLength => .decodeLength
  | .decodeIllegal => .decodeIllegal

structure ISCDigitalTransition where
  index : Nat
  value : Bool
  deriving DecidableEq, Repr

structure ISCAnalogTransition where
  index : Nat
  value : Nat
  deriving DecidableEq, Repr

structure ISCSerialTransition where
  index : Nat
  value : List Nat
  deriving DecidableEq, Repr

structure ISCClearOperation where
  deriving DecidableEq, Repr

structure ISCRefreshOperation where
  deriving DecidableEq, Repr

/-- `func (t *ISCDigitalTransition) MarshalBinary() ([]byte, error)`. -/
def ISCDigitalTransition.marshalBinary (t : ISCDigitalTransition) :
    Except MarshalErr (List Nat) :=
  if t.index > 4095 then .error .indexRange
  else
    -- buf[0] = 0x80 | (0x1f & (index >> 7)), then |= 0x20 when !Value
    let b0 := 0x80 ||| (0x1f &&& (t.index >>> 7))
    let b0f := if !t.value then b0 ||| 0x20 else b0
    .ok [b0f, 0x7f &&& t.index]

/-- `func (t *ISCDigitalTransition) UnmarshalBinary(buf []byte) error`.
Failure returns the error; success returns the fields stored into `t`. -/
def ISCDigitalTransition.unmarshalBinary (buf : List Nat) :
    Except UnmarshalErr ISCDigitalTransition :=
  if buf.length < 2 then .error .decodeLength
  else if ((buf.getD 0 0) &&& 0xC0 ≠ 0x80) ∨ ((buf.getD 1 0) &&& 0x80 ≠ 0x00) then
    .error .decodeIllegal
  else
    .ok { index := (buf.getD 1 0) ||| ((0x1f &&& (buf.getD 0 0)) <<< 7)
          value := (buf.getD 0 0) &&& 0x20 == 0x00 }

/-- `func (t *ISCAnalogTransition) MarshalBinary() ([]byte, error)`.
`byte((t.Value>>14)<<4)` and `byte(t.Index>>7)` are byte conversions of
unmasked operands, hence the `% 256`. -/
def ISCAnalogTransition.marshalBinary (t : ISCAnalogTransition) :
    Except MarshalErr (List Nat) :=
  if t.index > 1023 then .error .indexRange
  else
    .ok [0xc0 ||| (((t.value >>> 14) <<< 4) % 256) ||| ((t.index >>> 7) % 256),
         0x7f &&& t.index,
         0x7f &&& (t.value >>> 7),
         0x7f &&& t.value]

/-- `func (t *ISCAnalogTransition) UnmarshalBinary(buf []byte) error`.
The value field is computed in Go `uint16` arithmetic:
`uint16(0x30&buf[0])<<14 | uint16(buf[2])<<7 | uint16(buf[3])`, so every
conversion and shift result is reduced `% 65536`. -/
def ISCAnalogTransition.unmarshalBinary (buf : List Nat) :
    Except UnmarshalErr ISCAnalogTransition :=
  if buf.length < 4 then .error .decodeLength
  else if ((buf.getD 0 0) &&& 0xC8 ≠ 0xC0) ∨ ((buf.getD 1 0) &&& 0x80 ≠ 0x00) ∨
      ((buf.getD 2 0) &&& 0x80 ≠ 0x00) ∨ ((buf.getD 3 0) &&& 0x80 ≠ 0x00) then
    .error .decodeIllegal
  else
    .ok { index := (buf.getD 1 0) ||| ((0x07 &&& (buf.getD 0 0)) <<< 7)
          value := ((((0x30 &&& (buf.getD 0 0)) % 65536) <<< 14) % 65536) |||
                   ((((buf.getD 2 0) % 65536) <<< 7) % 65536) |||
                   ((buf.getD 3 0) % 65536) }

/-- `func (t *ISCSerialTransition) MarshalBinary() ([]byte, error)`. -/
def ISCSerialTransition.marshalBinary (t : ISCSerialTransition) :
    Except MarshalErr (List Nat) :=
  if t.index > 1023 then .error .indexRange
  else if t.value.length > 252 then .error .serialLength
  else if t.value.any (fun b => b == 0xFF) then .error .serialInvalidByte
  else
    .ok ([0xc8 ||| ((t.index >>> 7) % 256), 0x7f &&& t.index] ++ t.value ++ [0xff])

/-- `func (t *ISCSerialTransition) UnmarshalBinary(buf []byte) error`.
`copy(t.Value, buf[2:])` into a slice of length `len(buf)-3` copies exactly
`len(buf)-3` bytes, i.e. `(buf.drop 2).take (buf.length - 3)`. -/
def ISCSerialTransition.unmarshalBinary (buf : List Nat) :
    Except UnmarshalErr ISCSerialTransition :=
  if buf.length < 3 then .error .decodeLength
  else if buf.getD (buf.length - 1) 0 ≠ 0xff then .error .decodeIllegal
  else if ((buf.getD 0 0) &&& 0xF8 ≠ 0xC8) ∨ ((buf.getD 1 0) &&& 0x80 ≠ 0x00) then
    .error .decodeIllegal
  else
    .ok { index := (buf.getD 1 0) ||| ((0x07 &&& (buf.getD 0 0)) <<< 7)
          value := (buf.drop 2).take (buf.length - 3) }

/-- `func (o *ISCClearOperation) MarshalBinary() ([]byte, error)`. -/
def ISCClearOperation.marshalBinary (_ : ISCClearOperation) :
    Except MarshalErr (List Nat) := .ok [0xFC]

/-- `func (o *ISCClearOperation) UnmarshalBinary(buf []byte) error`. -/
def ISCClearOperation.unmarshalBinary (buf : List Nat) :
    Except UnmarshalErr ISCClearOperation :=
  if buf.length < 1 then .error .decodeLength
  else if buf.getD 0 0 ≠ 0xFC then .error .decodeIllegal
  else .ok {}

/-- `func (o *ISCRefreshOperation) MarshalBinary() ([]byte, error)`. -/
def ISCRefreshOperation.marshalBinary (_ : ISCRefreshOperation) :
    Except MarshalErr (List Nat) := .ok [0xFD]

/-- `func (o *ISCRefreshOperation) UnmarshalBinary(buf []byte) error`. -/
def ISCRefreshOperation.unmarshalBinary (buf : List Nat) :
    Except UnmarshalErr ISCRefreshOperation :=
  if buf.length < 1 then .error .decodeLength
  else if buf.getD 0 0 ≠ 0xFD then .error .decodeIllegal
  else .ok {}

/-- The tagged union of values produced by `ISCDecoder.Decode`
(the dynamic type behind the `interface{}` return). -/
inductive ISCValue where
  | digital : ISCDigitalTransition → ISCValue
  | analog : ISCAnalogTransition → ISCValue
  | serial : ISCSerialTransition → ISCValue
  | clear : ISCValue
  | refresh : ISCValue
  deriving DecidableEq, Repr

/-- `type ISCDecoder struct { r *bufio.Reader; err error }`, for a decoder
built by `NewISCDecoder` (so `r` is non-nil).  The buffered reader is
modelled as the list of bytes remaining in the stream. -/
structure ISCDecoder where
  buf : List Nat
  err : Option DecodeErr
  deriving DecidableEq, Repr

/-- `func NewISCDecoder(r io.Reader) *ISCDecoder`. -/
def NewISCDecoder (bytes : List Nat) : ISCDecoder := ⟨bytes, none⟩

/-- Model of `bufio.Reader.ReadBytes(0xFF)`: consume bytes up to and
including the first delimiter; `none` models hitting end of stream first
(Go returns the data read together with `io.EOF`, and `Decode` then
returns that error without using the data). -/
def readBytesUntil (delim : Nat) : List Nat → Option (List Nat × List Nat)
  | [] => none
  | b :: bs =>
    if b = delim then some ([b], bs)
    else
      match readBytesUntil delim bs with
      | some (pkt, rest) => some (b :: pkt, rest)
      | none => none

/-- `func (d *ISCDecoder) Decode() (v interface{}, err error)`.

The result pairs the returned `(v, err)` with the decoder state after the
call.  The Go `defer func() { d.err = err }()` stores the returned error
into `d.err` on every path, so each branch below records its error in the
final state.  `io.ReadFull` on the peeked stream consumes
`min n (length)` bytes and reports `io.ErrUnexpectedEOF` when fewer than
`n` bytes remain (at least the peeked byte is available).  On an
unmarshal error the Go code still executes `v = res`, returning the
zero-valued struct, which is reproduced here. -/
def ISCDecoder.decode (d : ISCDecoder) :
    (Option ISCValue × Option DecodeErr) × ISCDecoder :=
  match d.err with
  | some e => ((none, some e), ⟨d.buf, some e⟩)
  | none =>
  match d.buf with
  | [] => ((none, some .eof), ⟨[], some .eof⟩)
  | p :: tl =>
    if p = 0xFC then
      match ISCClearOperation.unmarshalBinary ((p :: tl).take 1) with
      | .ok _ => ((some .clear, none), ⟨tl, none⟩)
      | .error e =>
          ((some .clear, some e.toDecodeErr), ⟨tl, some e.toDecodeErr⟩)
    else if p = 0xFD then
      match ISCRefreshOperation.unmarshalBinary ((p :: tl).take 1) with
      | .ok _ => ((some .refresh, none), ⟨tl, none⟩)
      | .error e =>
          ((some .refresh, some e.toDecodeErr), ⟨tl, some e.toDecodeErr⟩)
    else if p &&& 0xC0 = 0x80 then
      if (p :: tl).length < 2 then
        ((none, some .unexpectedEOF), ⟨[], some .unexpectedEOF⟩)
      else
        match ISCDigitalTransition.unmarshalBinary ((p :: tl).take 2) with
        | .ok t => ((some (.digital t), none), ⟨(p :: tl).drop 2, none⟩)
        | .error e =>
            ((some (.digital ⟨0, false⟩), some e.toDecodeErr),
             ⟨(p :: tl).drop 2, some e.toDecodeErr⟩)
    else if p &&& 0xC8 = 0xC0 then
      if (p :: tl).length < 4 then
        ((none, some .unexpectedEOF), ⟨[], some .unexpectedEOF⟩)
      else
        match ISCAnalogTransition.unmarshalBinary ((p :: tl).take 4) with
        | .ok t => ((some (.analog t), none), ⟨(p :: tl).drop 4, none⟩)
        | .error e =>
            ((some (.analog ⟨0, 0⟩), some e.toDecodeErr),
             ⟨(p :: tl).drop 4, some e.toDecodeErr⟩)
    else if p &&& 0xF8 = 0xC8 then
      match readBytesUntil 0xFF (p :: tl) with
      | none => ((none, some .eof), ⟨[], some .eof⟩)
      | some (pkt, rest) =>
        match ISCSerialTransition.unmarshalBinary pkt with
        | .ok t => ((some (.serial t), none), ⟨rest, none⟩)
        | .error e =>
            ((some (.serial ⟨0, []⟩), some e.toDecodeErr),
             ⟨rest, some e.toDecodeErr⟩)
    else
      ((none, none), ⟨p :: tl, none⟩)

/-- Iterate `Decode` a given number of times, collecting each call's
`(v, err)` pair and the final decoder state. -/
def decodeN : Nat → ISCDecoder → List (Option ISCValue × Option DecodeErr) × ISCDecoder
  | 0, d => ([], d)
  | n + 1, d =>
    match ISCDecoder.decode d with
    | (r, d1) =>
      match decodeN n d1 with
      | (rs, d2) => (r :: rs, d2)

/-- Dispatch of MarshalBinary over the tagged union. -/
def marshalValue : ISCValue → Except MarshalErr (List Nat)
  | .digital t => t.marshalBinary
  | .analog t => t.marshalBinary
  | .serial t => t.marshalBinary
  | .clear => ISCClearOperation.marshalBinary {}
  | .refresh => ISCRefreshOperation.marshalBinary {}

/-- A value representable in Go: indices within the kind's encodable range,
an analog value fitting `uint16`, serial payload bytes that are bytes and
never the 0xFF sentinel. -/
def validValueB : ISCValue → Bool
  | .digital t => t.index ≤ 4095
  | .analog t => t.index ≤ 1023 && t.value < 65536
  | .serial t => t.index ≤ 1023 && t.value.length ≤ 252 &&
      t.value.all (fun b => b < 256 && b != 0xFF)
  | .clear => true
  | .refresh => true

/-- Concatenation of the encodings of a list of values (the byte stream
obtained by marshalling each in turn). -/
def encodeAll : List ISCValue → List Nat
  | [] => []
  | v :: vs =>
    (match marshalValue v with
     | .ok bs => bs
     | .error _ => []) ++ encodeAll vs

/-- The value the decoder reconstructs from a value's own encoding: the
identity, except that the analog decoder loses the top two value bits
(its `<<14` on a `uint16` overflows), leaving the value modulo 2^14. -/
def decodedValue : ISCValue → ISCValue
  | .analog t => .analog ⟨t.index, t.value % 16384⟩
  | v => v


lemma land127_eq_mod (x : Nat) : 0x7f &&& x = x % 128 := by
  rw [Nat.and_comm]
  have h := Nat.and_pow_two_sub_one_eq_mod x 7
  norm_num at h
  exact h

lemma land31_eq_mod (x : Nat) : 0x1f &&& x = x % 32 := by
  rw [Nat.and_comm]
  have h := Nat.and_pow_two_sub_one_eq_mod x 5
  norm_num at h
  exact h

lemma lt_128_and_128 (a : Nat) (h : a < 128) : a &&& 0x80 = 0 := by
  have h7 : a.testBit 7 = false := Nat.testBit_lt_two_pow (by norm_num; omega)
  have := Nat.and_two_pow a 7
  norm_num at this
  rw [this, h7]
  simp

lemma or_msb (a b : Nat) (h : a &&& 0x80 = 0x80) : (a ||| b) &&& 0x80 = 0x80 := by
  have ha := Nat.and_two_pow a 7
  have hab := Nat.and_two_pow (a ||| b) 7
  norm_num at ha hab
  rw [hab]
  rw [ha] at h
  have h7 : a.testBit 7 = true := by
    cases hh : a.testBit 7 <;> simp [hh] at h ⊢
  simp [h7]

lemma index_recon (i : Nat) :
    (0x7f &&& i) ||| ((i >>> 7) <<< 7) = i := by
  rw [land127_eq_mod, Nat.shiftRight_eq_div_pow, Nat.shiftLeft_eq]
  norm_num
  rw [Nat.or_comm]
  have hlt : i % 128 < 2 ^ 7 := by omega
  rw [mul_comm]
  rw [← Nat.mul_add_lt_is_or hlt]
  omega

lemma analog_value_low (v : Nat) :
    ((0x7f &&& (v >>> 7)) <<< 7) ||| (0x7f &&& v) = v % 16384 := by
  rw [land127_eq_mod, land127_eq_mod, Nat.shiftRight_eq_div_pow, Nat.shiftLeft_eq]
  norm_num
  have hlt : v % 128 < 2 ^ 7 := by omega
  rw [mul_comm]
  rw [← Nat.mul_add_lt_is_or hlt]
  omega

lemma digital_b0_facts : ∀ x < 32,
    ((0x80 ||| x) &&& 0xC0 = 0x80) ∧ (((0x80 ||| x) ||| 0x20) &&& 0xC0 = 0x80) ∧
    (0x1f &&& (0x80 ||| x) = x) ∧ (0x1f &&& ((0x80 ||| x) ||| 0x20) = x) ∧
    ((0x80 ||| x) &&& 0x20 = 0) ∧ (((0x80 ||| x) ||| 0x20) &&& 0x20 = 0x20) ∧
    (0x80 ||| x ≠ 0xFC) ∧ (0x80 ||| x ≠ 0xFD) ∧
    ((0x80 ||| x) ||| 0x20 ≠ 0xFC) ∧ ((0x80 ||| x) ||| 0x20 ≠ 0xFD) ∧
    ((0x80 ||| x) &&& 0x80 = 0x80) ∧ (((0x80 ||| x) ||| 0x20) &&& 0x80 = 0x80) := by decide

lemma analog_b0_facts : ∀ w < 4, ∀ x < 8,
    ((0xc0 ||| (((w <<< 4) % 256)) ||| x) &&& 0xC8 = 0xC0) ∧
    (0x07 &&& (0xc0 ||| (((w <<< 4) % 256)) ||| x) = x) ∧
    (0x30 &&& (0xc0 ||| (((w <<< 4) % 256)) ||| x) = w <<< 4) ∧
    (0xc0 ||| (((w <<< 4) % 256)) ||| x ≠ 0xFC) ∧
    (0xc0 ||| (((w <<< 4) % 256)) ||| x ≠ 0xFD) ∧
    ((0xc0 ||| (((w <<< 4) % 256)) ||| x) &&& 0xC0 ≠ 0x80) ∧
    (((w <<< 4) % 65536) <<< 14) % 65536 = 0 := by decide

lemma serial_b0_facts : ∀ x < 8,
    ((0xc8 ||| x) &&& 0xF8 = 0xC8) ∧ (0x07 &&& (0xc8 ||| x) = x) ∧
    (0xc8 ||| x ≠ 0xFC) ∧ (0xc8 ||| x ≠ 0xFD) ∧
    ((0xc8 ||| x) &&& 0xC0 ≠ 0x80) ∧ ((0xc8 ||| x) &&& 0xC8 ≠ 0xC0) ∧
    (0xc8 ||| x ≠ 0xFF) ∧ ((0xc8 ||| x) &&& 0x80 = 0x80) := by decide


lemma digital_unmarshal_pair (a b : Nat) :
    ISCDigitalTransition.unmarshalBinary [a, b] =
      if (a &&& 0xC0 ≠ 0x80) ∨ (b &&& 0x80 ≠ 0x00) then .error .decodeIllegal
      else .ok ⟨b ||| ((0x1f &&& a) <<< 7), a &&& 0x20 == 0x00⟩ := by
  simp [ISCDigitalTransition.unmarshalBinary]

lemma digital_roundtrip (t : ISCDigitalTransition) (h : t.index ≤ 4095) :
    ∃ b0 b1, t.marshalBinary = .ok [b0, b1] ∧
      b0 &&& 0x80 = 0x80 ∧ b0 &&& 0xC0 = 0x80 ∧
      (b0 &&& 0x20 = if t.value then 0 else 0x20) ∧
      b0 ≠ 0xFC ∧ b0 ≠ 0xFD ∧ b1 &&& 0x80 = 0 ∧
      0x1f &&& b0 = t.index >>> 7 ∧ b1 = 0x7f &&& t.index ∧
      ISCDigitalTransition.unmarshalBinary [b0, b1] = .ok t := by
  obtain ⟨ti, tv⟩ := t
  simp only [ISCDigitalTransition.index] at h
  have hxlt : 0x1f &&& (ti >>> 7) < 32 :=
    Nat.lt_of_le_of_lt Nat.and_le_left (by norm_num)
  have hx : 0x1f &&& (ti >>> 7) = ti >>> 7 := by
    rw [land31_eq_mod]
    exact Nat.mod_eq_of_lt (by rw [Nat.shiftRight_eq_div_pow]; omega)
  have hblt : (0x7f &&& ti) &&& 0x80 = 0 :=
    lt_128_and_128 _ (Nat.lt_of_le_of_lt Nat.and_le_left (by norm_num))
  obtain ⟨f1, f2, f3, f4, f5, f6, f7, f8, f9, f10, f11, f12⟩ := digital_b0_facts _ hxlt
  cases tv
  · refine ⟨(0x80 ||| (0x1f &&& (ti >>> 7))) ||| 0x20, 0x7f &&& ti,
      ?_, f12, f2, by simp [f6], f9, f10, hblt, by rw [f4, hx], rfl, ?_⟩
    · unfold ISCDigitalTransition.marshalBinary
      rw [if_neg (by simp; omega)]
      simp
    · rw [digital_unmarshal_pair, if_neg (by push_neg; exact ⟨f2, hblt⟩)]
      simp only [Except.ok.injEq, ISCDigitalTransition.mk.injEq]
      refine ⟨?_, ?_⟩
      · rw [f4, hx, index_recon]
      · rw [f6]
        rfl
  · refine ⟨0x80 ||| (0x1f &&& (ti >>> 7)), 0x7f &&& ti,
      ?_, f11, f1, by simp [f5], f7, f8, hblt, by rw [f3, hx], rfl, ?_⟩
    · unfold ISCDigitalTransition.marshalBinary
      rw [if_neg (by simp; omega)]
      simp
    · rw [digital_unmarshal_pair, if_neg (by push_neg; exact ⟨f1, hblt⟩)]
      simp only [Except.ok.injEq, ISCDigitalTransition.mk.injEq]
      refine ⟨?_, ?_⟩
      · rw [f3, hx, index_recon]
      · rw [f5]
        rfl

lemma analog_unmarshal_quad (a b c d : Nat) :
    ISCAnalogTransition.unmarshalBinary [a, b, c, d] =
      if (a &&& 0xC8 ≠ 0xC0) ∨ (b &&& 0x80 ≠ 0x00) ∨ (c &&& 0x80 ≠ 0x00) ∨ (d &&& 0x80 ≠ 0x00) then
        .error .decodeIllegal
      else
        .ok ⟨b ||| ((0x07 &&& a) <<< 7),
             ((((0x30 &&& a) % 65536) <<< 14) % 65536) ||| (((c % 65536) <<< 7) % 65536) ||| (d % 65536)⟩ := by
  simp [ISCAnalogTransition.unmarshalBinary]

lemma land127_lt (x : Nat) : 0x7f &&& x < 128 :=
  Nat.lt_of_le_of_lt Nat.and_le_left (by norm_num)

lemma analog_roundtrip (t : ISCAnalogTransition) (hi : t.index ≤ 1023) (hv : t.value < 65536) :
    ∃ b0 b1 b2 b3, t.marshalBinary = .ok [b0, b1, b2, b3] ∧
      b0 ≠ 0xFC ∧ b0 ≠ 0xFD ∧ b0 &&& 0xC0 ≠ 0x80 ∧ b0 &&& 0xC8 = 0xC0 ∧
      ISCAnalogTransition.unmarshalBinary [b0, b1, b2, b3] = .ok ⟨t.index, t.value % 16384⟩ := by
  obtain ⟨ti, v⟩ := t
  simp only [ISCAnalogTransition.index, ISCAnalogTransition.value] at hi hv
  have hw : v >>> 14 < 4 := by rw [Nat.shiftRight_eq_div_pow]; omega
  have hxe : (ti >>> 7) % 256 = ti >>> 7 :=
    Nat.mod_eq_of_lt (by rw [Nat.shiftRight_eq_div_pow]; omega)
  have hxlt : ti >>> 7 < 8 := by rw [Nat.shiftRight_eq_div_pow]; omega
  obtain ⟨f1, f2, f3, f4, f5, f6, f7⟩ := analog_b0_facts _ hw _ hxlt
  refine ⟨0xc0 ||| (((v >>> 14) <<< 4) % 256) ||| (ti >>> 7),
           0x7f &&& ti, 0x7f &&& (v >>> 7), 0x7f &&& v, ?_, f4, f5, f6, f1, ?_⟩
  · unfold ISCAnalogTransition.marshalBinary
    rw [if_neg (show ¬({ index := ti, value := v } : ISCAnalogTransition).index > 1023 by simp only; omega), hxe]
  · rw [analog_unmarshal_quad]
    rw [if_neg (by
      push_neg
      exact ⟨f1, lt_128_and_128 _ (land127_lt ti),
        lt_128_and_128 _ (land127_lt (v >>> 7)), lt_128_and_128 _ (land127_lt v)⟩)]
    simp only [Except.ok.injEq, ISCAnalogTransition.mk.injEq]
    refine ⟨?_, ?_⟩
    · rw [f2, index_recon]
    · rw [f3, f7, Nat.zero_or]
      rw [Nat.mod_eq_of_lt (a := 0x7f &&& (v >>> 7)) (by have := land127_lt (v >>> 7); omega)]
      rw [Nat.mod_eq_of_lt (a := (0x7f &&& (v >>> 7)) <<< 7) (by
        rw [Nat.shiftLeft_eq]
        have := land127_lt (v >>> 7)
        norm_num
        omega)]
      rw [Nat.mod_eq_of_lt (a := 0x7f &&& v) (by have := land127_lt v; omega)]
      exact analog_value_low v

lemma getD_len_append (l : List Nat) (x : Nat) : (l ++ [x]).getD l.length 0 = x := by
  induction l with
  | nil => rfl
  | cons a l ih => simp [ih]

lemma take_len_append (l : List Nat) (x : Nat) : (l ++ [x]).take l.length = l := by
  induction l with
  | nil => rfl
  | cons a l ih => simp [ih]

lemma serial_roundtrip (t : ISCSerialTransition) (hi : t.index ≤ 1023)
    (hl : t.value.length ≤ 252) (hb : ∀ b ∈ t.value, b ≠ 0xFF) :
    ∃ b0 b1, t.marshalBinary = .ok (b0 :: b1 :: (t.value ++ [0xFF])) ∧
      b0 ≠ 0xFC ∧ b0 ≠ 0xFD ∧ b0 &&& 0xC0 ≠ 0x80 ∧ b0 &&& 0xC8 ≠ 0xC0 ∧
      b0 &&& 0xF8 = 0xC8 ∧ b0 ≠ 0xFF ∧ b0 &&& 0x80 = 0x80 ∧
      b1 &&& 0x80 = 0 ∧ b1 ≠ 0xFF ∧
      (b0 :: b1 :: (t.value ++ [0xFF])).length = t.value.length + 3 ∧
      (b0 :: b1 :: (t.value ++ [0xFF])).getD ((b0 :: b1 :: (t.value ++ [0xFF])).length - 1) 0 = 0xFF ∧
      ISCSerialTransition.unmarshalBinary (b0 :: b1 :: (t.value ++ [0xFF])) = .ok t := by
  obtain ⟨ti, pl⟩ := t
  simp only [ISCSerialTransition.index, ISCSerialTransition.value] at hi hl hb ⊢
  have hxe : (ti >>> 7) % 256 = ti >>> 7 :=
    Nat.mod_eq_of_lt (by rw [Nat.shiftRight_eq_div_pow]; omega)
  have hxlt : ti >>> 7 < 8 := by rw [Nat.shiftRight_eq_div_pow]; omega
  obtain ⟨g1, g2, g3, g4, g5, g6, g7, g8⟩ := serial_b0_facts _ hxlt
  have hb1 : (0x7f &&& ti) &&& 0x80 = 0 := lt_128_and_128 _ (land127_lt ti)
  have hb1ne : 0x7f &&& ti ≠ 0xFF := by have := land127_lt ti; omega
  refine ⟨0xc8 ||| (ti >>> 7), 0x7f &&& ti, ?_, g3, g4, g5, g6, g1, g7, g8, hb1, hb1ne, by simp, ?_, ?_⟩
  · unfold ISCSerialTransition.marshalBinary
    rw [if_neg (show ¬({ index := ti, value := pl } : ISCSerialTransition).index > 1023 by simp only; omega)]
    rw [if_neg (show ¬({ index := ti, value := pl } : ISCSerialTransition).value.length > 252 by simp only; omega)]
    rw [if_neg (by
      simp only [ISCSerialTransition.value, List.any_eq_true, not_exists, not_and]
      intro b hbm
      simp only [beq_iff_eq]
      push_neg
      exact hb b hbm)]
    rw [hxe]
    simp
  · have hlen : ((0xc8 ||| (ti >>> 7)) :: (0x7f &&& ti) :: (pl ++ [0xff])).length = pl.length + 3 := by
      simp
    rw [hlen, show pl.length + 3 - 1 = pl.length + 1 + 1 by omega]
    rw [List.getD_cons_succ, List.getD_cons_succ, getD_len_append]
  · unfold ISCSerialTransition.unmarshalBinary
    have hlen : ((0xc8 ||| (ti >>> 7)) :: (0x7f &&& ti) :: (pl ++ [0xff])).length = pl.length + 3 := by
      simp
    rw [hlen]
    rw [if_neg (by omega)]
    rw [show pl.length + 3 - 1 = pl.length + 1 + 1 by omega]
    rw [List.getD_cons_succ, List.getD_cons_succ, getD_len_append]
    rw [if_neg (by omega)]
    rw [if_neg (by
      push_neg
      simp only [List.getD_cons_zero, List.getD_cons_succ]
      exact ⟨g1, lt_128_and_128 _ (land127_lt ti)⟩)]
    simp only [List.getD_cons_zero, List.getD_cons_succ, Except.ok.injEq,
      ISCSerialTransition.mk.injEq]
    refine ⟨?_, ?_⟩
    · rw [g2, index_recon]
    · rw [show pl.length + 3 - 3 = pl.length by omega]
      simp only [List.drop_succ_cons, List.drop_zero]
      exact take_len_append pl 0xff

lemma readBytesUntil_append (xs rest : List Nat) (h : ∀ b ∈ xs, b ≠ 0xFF) :
    readBytesUntil 0xFF (xs ++ 0xFF :: rest) = some (xs ++ [0xFF], rest) := by
  induction xs with
  | nil => simp [readBytesUntil]
  | cons a xs ih =>
    simp only [List.cons_append, readBytesUntil]
    rw [if_neg (h a (by simp))]
    simp [ih (fun b hb => h b (by simp [hb]))]

lemma decode_step (v : ISCValue) (bs rest : List Nat)
    (hv : validValueB v = true) (h : marshalValue v = .ok bs) :
    ISCDecoder.decode ⟨bs ++ rest, none⟩ = ((some (decodedValue v), none), ⟨rest, none⟩) := by
  cases v with
  | clear =>
    have : bs = [0xFC] := by
      simp only [marshalValue, ISCClearOperation.marshalBinary, Except.ok.injEq] at h
      exact h.symm
    subst this
    rfl
  | refresh =>
    have : bs = [0xFD] := by
      simp only [marshalValue, ISCRefreshOperation.marshalBinary, Except.ok.injEq] at h
      exact h.symm
    subst this
    rfl
  | digital t =>
    simp only [validValueB, decide_eq_true_eq] at hv
    obtain ⟨b0, b1, hm, _, hc0, _, hfc, hfd, _, _, _, hun⟩ := digital_roundtrip t hv
    simp only [marshalValue] at h
    rw [hm] at h
    injection h with h
    subst h
    show ISCDecoder.decode ⟨b0 :: b1 :: rest, none⟩ = _
    simp only [ISCDecoder.decode]
    rw [if_neg hfc, if_neg hfd, if_pos hc0]
    rw [if_neg (by simp)]
    simp only [List.take_succ_cons, List.take_zero, List.drop_succ_cons, List.drop_zero]
    rw [hun]
    rfl
  | analog t =>
    simp only [validValueB, Bool.and_eq_true, decide_eq_true_eq] at hv
    obtain ⟨b0, b1, b2, b3, hm, hfc, hfd, hdm, hc8, hun⟩ := analog_roundtrip t hv.1 hv.2
    simp only [marshalValue] at h
    rw [hm] at h
    injection h with h
    subst h
    show ISCDecoder.decode ⟨b0 :: b1 :: b2 :: b3 :: rest, none⟩ = _
    simp only [ISCDecoder.decode]
    rw [if_neg hfc, if_neg hfd, if_neg hdm, if_pos hc8]
    rw [if_neg (by simp)]
    simp only [List.take_succ_cons, List.take_zero, List.drop_succ_cons, List.drop_zero]
    rw [hun]
    rfl
  | serial t =>
    simp only [validValueB, Bool.and_eq_true, decide_eq_true_eq, List.all_eq_true] at hv
    have hvi := hv.1.1
    have hvl := hv.1.2
    have hvb := hv.2
    obtain ⟨b0, b1, hm, hfc, hfd, hdm, ham, hsm, hb0ff, _, _, hb1ff, _, _, hun⟩ :=
      serial_roundtrip t hvi hvl (fun b hb => by
        have := hvb b hb
        simp only [Bool.and_eq_true, decide_eq_true_eq, bne_iff_ne, ne_eq] at this
        exact this.2)
    simp only [marshalValue] at h
    rw [hm] at h
    injection h with h
    subst h
    show ISCDecoder.decode ⟨b0 :: b1 :: (t.value ++ [0xFF]) ++ rest, none⟩ = _
    have hra : (b0 :: b1 :: (t.value ++ [0xFF])) ++ rest =
        (b0 :: b1 :: t.value) ++ 0xFF :: rest := by
      simp
    rw [hra]
    simp only [ISCDecoder.decode, List.cons_append]
    rw [if_neg hfc, if_neg hfd, if_neg hdm, if_neg ham, if_pos hsm]
    have hrb := readBytesUntil_append (b0 :: b1 :: t.value) rest (by
      intro b hb
      simp only [List.mem_cons] at hb
      rcases hb with hb | hb | hb
      · rw [hb]; exact hb0ff
      · rw [hb]; exact hb1ff
      · have := hvb b hb
        simp only [Bool.and_eq_true, decide_eq_true_eq, bne_iff_ne, ne_eq] at this
        exact this.2)
    simp only [List.cons_append] at hrb
    rw [hrb]
    simp [hun, decodedValue]

lemma marshal_ok_of_valid (v : ISCValue) (hv : validValueB v = true) :
    ∃ bs, marshalValue v = .ok bs := by
  cases v with
  | clear => exact ⟨[0xFC], rfl⟩
  | refresh => exact ⟨[0xFD], rfl⟩
  | digital t =>
    simp only [validValueB, decide_eq_true_eq] at hv
    obtain ⟨b0, b1, hm, _⟩ := digital_roundtrip t hv
    exact ⟨[b0, b1], hm⟩
  | analog t =>
    simp only [validValueB, Bool.and_eq_true, decide_eq_true_eq] at hv
    obtain ⟨b0, b1, b2, b3, hm, _⟩ := analog_roundtrip t hv.1 hv.2
    exact ⟨[b0, b1, b2, b3], hm⟩
  | serial t =>
    simp only [validValueB, Bool.and_eq_true, decide_eq_true_eq, List.all_eq_true] at hv
    obtain ⟨b0, b1, hm, _⟩ := serial_roundtrip t hv.1.1 hv.1.2 (fun b hb => by
      have := hv.2 b hb
      simp only [Bool.and_eq_true, decide_eq_true_eq, bne_iff_ne, ne_eq] at this
      exact this.2)
    exact ⟨_, hm⟩

lemma decode_chain (vs : List ISCValue) (hv : ∀ v ∈ vs, validValueB v = true) :
    decodeN vs.length ⟨encodeAll vs, none⟩ =
      (vs.map (fun v => (some (decodedValue v), none)), ⟨[], none⟩) := by
  induction vs with
  | nil => rfl
  | cons v vs ih =>
    have hvv := hv v (by simp)
    obtain ⟨bs, hbs⟩ := marshal_ok_of_valid v hvv
    simp only [List.length_cons, decodeN, encodeAll, hbs]
    rw [decode_step v bs (encodeAll vs) hvv hbs]
    rw [ih (fun w hw => hv w (by simp [hw]))]
    simp

lemma decode_sticky (b : List Nat) (e : DecodeErr) :
    ISCDecoder.decode ⟨b, some e⟩ = ((none, some e), ⟨b, some e⟩) := rfl

lemma decode_err_stores (d : ISCDecoder) :
    (ISCDecoder.decode d).2.err = (ISCDecoder.decode d).1.2 := by
  obtain ⟨buf, err⟩ := d
  cases err with
  | some e => rfl
  | none =>
    cases buf with
    | nil => rfl
    | cons p tl =>
      simp only [ISCDecoder.decode]
      repeat' split
      all_goals rfl

lemma decodeN_sticky (b : List Nat) (e : DecodeErr) (n : Nat) :
    decodeN n ⟨b, some e⟩ =
      (List.replicate n ((none : Option ISCValue), some e), ⟨b, some e⟩) := by
  induction n with
  | zero => rfl
  | succ n ih => simp only [decodeN, decode_sticky, ih, List.replicate_succ]

lemma decode_unmatched (p : Nat) (tl : List Nat) (h1 : p ≠ 0xFC) (h2 : p ≠ 0xFD)
    (h3 : p &&& 0xC0 ≠ 0x80) (h4 : p &&& 0xC8 ≠ 0xC0) (h5 : p &&& 0xF8 ≠ 0xC8) :
    ISCDecoder.decode ⟨p :: tl, none⟩ = ((none, none), ⟨p :: tl, none⟩) := by
  simp only [ISCDecoder.decode]
  rw [if_neg h1, if_neg h2, if_neg h3, if_neg h4, if_neg h5]

/-- C1: the spec asks that the full 16-bit analog value range round-trip, and calls
any mismatch a decode/encode symmetry bug.  The code fails this: encoding the
valid AnalogTransition with index 0 and value 16384 yields the 4 bytes
D0 00 00 00, and decoding those bytes yields value 0, not 16384 — the decoder's
shift of the two extension bits by 14 overflows `uint16`, so every value at or
above 16384 is truncated modulo 16384. -/
theorem isc_c1_analog_value_16384_lost :
    ISCAnalogTransition.marshalBinary ⟨0, 16384⟩ = .ok [0xD0, 0x00, 0x00, 0x00] ∧
    ISCAnalogTransition.unmarshalBinary [0xD0, 0x00, 0x00, 0x00] = .ok ⟨0, 0⟩ ∧
    (0 : Nat) ≠ 16384 := by
  refine ⟨by decide, by decide, by decide⟩

/-- C2: the spec requires an unmatched first byte (for example 0x00 or 0xFE,
matching none of the five wire patterns) to be reported as InvalidEncoding.
The code instead falls through every pattern test and returns a nil value
with a nil error, consuming nothing — no error is reported. -/
theorem isc_c2_unmatched_byte_reports_nothing :
    ISCDecoder.decode ⟨[0x00], none⟩ = ((none, none), ⟨[0x00], none⟩) ∧
    ISCDecoder.decode ⟨[0xFE], none⟩ = ((none, none), ⟨[0xFE], none⟩) ∧
    ISCDecoder.decode ⟨[0xFF], none⟩ = ((none, none), ⟨[0xFF], none⟩) ∧
    ISCDecoder.decode ⟨[0xD8], none⟩ = ((none, none), ⟨[0xD8], none⟩) := by
  refine ⟨by decide, by decide, by decide, by decide⟩

/-- C3, counterexample: after `Decode` hits end of stream at the peek, the
deferred `d.err = err` stores `io.EOF` in the sticky error field, so a later
call on the same decoder returns the stored EOF without re-attempting the
peek — even when a valid Clear opcode byte has since become available. -/
theorem isc_c3_eof_sticky_counterexample :
    (ISCDecoder.decode ⟨[], none⟩).2.err = some DecodeErr.eof ∧
    ISCDecoder.decode ⟨[0xFC], some DecodeErr.eof⟩ =
      ((none, some DecodeErr.eof), ⟨[0xFC], some DecodeErr.eof⟩) := by
  refine ⟨by decide, by decide⟩

/-- C3, amended: end of stream at the peek is surfaced as the call's result
and is also recorded in the sticky error field; every subsequent call on that
decoder returns the stored EOF without consuming or examining new bytes. -/
theorem isc_c3_eof_surfaced_and_sticky :
    ISCDecoder.decode ⟨[], none⟩ = ((none, some DecodeErr.eof), ⟨[], some DecodeErr.eof⟩) ∧
    ∀ bytes : List Nat, ISCDecoder.decode ⟨bytes, some DecodeErr.eof⟩ =
      ((none, some DecodeErr.eof), ⟨bytes, some DecodeErr.eof⟩) :=
  ⟨rfl, fun bytes => decode_sticky bytes .eof⟩

/-- C4: once a `Decode` call returns the InvalidEncoding error
(`ErrDecodeIllegal`), every later call on that decoder instance immediately
returns the same error, the stream position never advances, and the sticky
error field is never reset. -/
theorem isc_c4_illegal_error_is_sticky (d d' : ISCDecoder) (v : Option ISCValue)
    (h : ISCDecoder.decode d = ((v, some DecodeErr.decodeIllegal), d')) :
    ∀ n : Nat, decodeN n d' =
      (List.replicate n ((none : Option ISCValue), some DecodeErr.decodeIllegal), d') := by
  have he : d'.err = some DecodeErr.decodeIllegal := by
    have hh := decode_err_stores d
    rw [h] at hh
    exact hh
  obtain ⟨b, e⟩ := d'
  have he' : e = some DecodeErr.decodeIllegal := he
  subst he'
  exact decodeN_sticky b .decodeIllegal

theorem isc_c4_illegal_error_is_sticky_witness :
    ISCDecoder.decode ⟨[0x80, 0x80], none⟩ =
      ((some (.digital ⟨0, false⟩), some DecodeErr.decodeIllegal),
        ⟨[], some DecodeErr.decodeIllegal⟩) ∧
    decodeN 2 ⟨[], some DecodeErr.decodeIllegal⟩ =
      (List.replicate 2 ((none : Option ISCValue), some DecodeErr.decodeIllegal),
        ⟨[], some DecodeErr.decodeIllegal⟩) :=
  ⟨by decide,
    isc_c4_illegal_error_is_sticky ⟨[0x80, 0x80], none⟩ ⟨[], some DecodeErr.decodeIllegal⟩
      (some (.digital ⟨0, false⟩)) (by decide) 2⟩

/-- C7: every DigitalTransition with index at most 4095 marshals to exactly
two bytes — byte0 with the MSB set, the high five index bits in its low five
bits, and the complement bit 0x20 set exactly when the value is false; byte1
the low seven index bits with MSB clear — and unmarshalling those two bytes
returns the identical transition. -/
theorem isc_c7_digital_roundtrip (t : ISCDigitalTransition) (h : t.index ≤ 4095) :
    ∃ b0 b1, t.marshalBinary = .ok [b0, b1] ∧
      b0 &&& 0x80 = 0x80 ∧
      0x1f &&& b0 = t.index >>> 7 ∧
      (b0 &&& 0x20 = if t.value then 0 else 0x20) ∧
      b1 = 0x7f &&& t.index ∧ b1 &&& 0x80 = 0 ∧
      ISCDigitalTransition.unmarshalBinary [b0, b1] = .ok t := by
  obtain ⟨b0, b1, hm, hmsb, _, h20, _, _, hb1m, hhi, hlo, hun⟩ := digital_roundtrip t h
  exact ⟨b0, b1, hm, hmsb, hhi, h20, hlo, hb1m, hun⟩

theorem isc_c7_digital_roundtrip_witness :
    (1 : Nat) ≤ 4095 ∧
    ∃ b0 b1, ISCDigitalTransition.marshalBinary ⟨1, true⟩ = .ok [b0, b1] ∧
      b0 &&& 0x80 = 0x80 ∧
      0x1f &&& b0 = (1 : Nat) >>> 7 ∧
      (b0 &&& 0x20 = if true then 0 else 0x20) ∧
      b1 = 0x7f &&& 1 ∧ b1 &&& 0x80 = 0 ∧
      ISCDigitalTransition.unmarshalBinary [b0, b1] = .ok ⟨1, true⟩ :=
  ⟨by decide, isc_c7_digital_roundtrip ⟨1, true⟩ (by decide)⟩

/-- C8: every SerialTransition with index at most 1023 and a payload of at
most 252 bytes containing no 0xFF marshals to payload-length + 3 bytes ending
in the 0xFF sentinel, and unmarshalling that buffer returns the identical
index and payload. -/
theorem isc_c8_serial_roundtrip (t : ISCSerialTransition) (hi : t.index ≤ 1023)
    (hl : t.value.length ≤ 252) (hb : ∀ b ∈ t.value, b ≠ 0xFF) :
    ∃ bs, t.marshalBinary = .ok bs ∧ bs.length = t.value.length + 3 ∧
      bs.getD (bs.length - 1) 0 = 0xFF ∧
      ISCSerialTransition.unmarshalBinary bs = .ok t := by
  obtain ⟨b0, b1, hm, _, _, _, _, _, _, _, _, _, hlen, hlast, hun⟩ := serial_roundtrip t hi hl hb
  exact ⟨_, hm, hlen, hlast, hun⟩

theorem isc_c8_serial_roundtrip_witness :
    (2 : Nat) ≤ 1023 ∧ ([0x41, 0x42] : List Nat).length ≤ 252 ∧
    (∀ b ∈ ([0x41, 0x42] : List Nat), b ≠ 0xFF) ∧
    ∃ bs, ISCSerialTransition.marshalBinary ⟨2, [0x41, 0x42]⟩ = .ok bs ∧
      bs.length = ([0x41, 0x42] : List Nat).length + 3 ∧
      bs.getD (bs.length - 1) 0 = 0xFF ∧
      ISCSerialTransition.unmarshalBinary bs = .ok ⟨2, [0x41, 0x42]⟩ :=
  ⟨by decide, by decide, by decide,
    isc_c8_serial_roundtrip ⟨2, [0x41, 0x42]⟩ (by decide) (by decide) (by decide)⟩

/-- C10: when the peeked first byte matches none of the five wire patterns,
`Decode` returns a nil value and a nil error, consumes nothing, and leaves
the sticky error field clean, so any number of further calls on the unchanged
stream return the same nil-nil result with the stream still untouched. -/
theorem isc_c10_unmatched_byte_silent_loop (p : Nat) (rest : List Nat)
    (h1 : p ≠ 0xFC) (h2 : p ≠ 0xFD) (h3 : p &&& 0xC0 ≠ 0x80)
    (h4 : p &&& 0xC8 ≠ 0xC0) (h5 : p &&& 0xF8 ≠ 0xC8) (n : Nat) :
    decodeN n ⟨p :: rest, none⟩ =
      (List.replicate n ((none : Option ISCValue), (none : Option DecodeErr)),
        ⟨p :: rest, none⟩) := by
  induction n with
  | zero => rfl
  | succ n ih =>
    simp only [decodeN, decode_unmatched p rest h1 h2 h3 h4 h5, ih, List.replicate_succ]

theorem isc_c10_unmatched_byte_silent_loop_witness :
    (0xFE : Nat) ≠ 0xFC ∧ (0xFE : Nat) ≠ 0xFD ∧ (0xFE : Nat) &&& 0xC0 ≠ 0x80 ∧
    (0xFE : Nat) &&& 0xC8 ≠ 0xC0 ∧ (0xFE : Nat) &&& 0xF8 ≠ 0xC8 ∧
    decodeN 3 ⟨[0xFE], none⟩ =
      (List.replicate 3 ((none : Option ISCValue), (none : Option DecodeErr)),
        ⟨[0xFE], none⟩) :=
  ⟨by decide, by decide, by decide, by decide, by decide,
    isc_c10_unmatched_byte_silent_loop 0xFE [] (by decide) (by decide) (by decide)
      (by decide) (by decide) 3⟩

/-- C5, counterexample: the successful 2-byte encoding of
DigitalTransition index 1, value true is 80 01; its second byte 0x01 is
neither a serial sentinel nor a Clear/Refresh opcode byte, yet its
most-significant bit is clear, refuting the claim that every such byte has
the MSB set. -/
theorem isc_c5_msb_counterexample :
    ISCDigitalTransition.marshalBinary ⟨1, true⟩ = .ok [0x80, 0x01] ∧
    (0x01 : Nat) &&& 0x80 ≠ 0x80 :=
  ⟨by decide, by decide⟩

/-- C5, amended: for every value whose MarshalBinary succeeds, the FIRST
byte of the encoding has its most-significant bit set; bytes after the first
of a digital or analog encoding have the MSB clear, and a serial encoding
has byte1 with MSB clear and ends in the 0xFF sentinel (its payload bytes
are copied verbatim and carry no MSB constraint). -/
theorem isc_c5_first_byte_msb (v : ISCValue) (bs : List Nat)
    (h : marshalValue v = .ok bs) :
    (bs.getD 0 0) &&& 0x80 = 0x80 ∧
    ((∃ t, v = .digital t) ∨ (∃ t, v = .analog t) →
      ∀ b ∈ bs.drop 1, b &&& 0x80 = 0) ∧
    (∀ t, v = .serial t →
      (bs.getD 1 0) &&& 0x80 = 0 ∧ bs.getD (bs.length - 1) 0 = 0xFF) := by
  cases v with
  | clear =>
    simp only [marshalValue, ISCClearOperation.marshalBinary, Except.ok.injEq] at h
    subst h
    refine ⟨by decide, ?_, ?_⟩
    · intro hd
      rcases hd with ⟨t, ht⟩ | ⟨t, ht⟩ <;> simp at ht
    · intro t ht
      simp at ht
  | refresh =>
    simp only [marshalValue, ISCRefreshOperation.marshalBinary, Except.ok.injEq] at h
    subst h
    refine ⟨by decide, ?_, ?_⟩
    · intro hd
      rcases hd with ⟨t, ht⟩ | ⟨t, ht⟩ <;> simp at ht
    · intro t ht
      simp at ht
  | digital t =>
    have hidx : t.index ≤ 4095 := by
      by_contra hgt
      simp only [marshalValue] at h
      unfold ISCDigitalTransition.marshalBinary at h
      rw [if_pos (by omega)] at h
      exact Except.noConfusion h
    obtain ⟨b0, b1, hm, hmsb, _, _, _, _, hb1m, _, _, _⟩ := digital_roundtrip t hidx
    simp only [marshalValue] at h
    rw [hm] at h
    injection h with h
    subst h
    refine ⟨by simpa using hmsb, ?_, ?_⟩
    · intro _ b hb
      simp only [List.drop_succ_cons, List.drop_zero, List.mem_singleton] at hb
      subst hb
      exact hb1m
    · intro t' ht
      simp at ht
  | analog t =>
    have hidx : t.index ≤ 1023 := by
      by_contra hgt
      simp only [marshalValue] at h
      unfold ISCAnalogTransition.marshalBinary at h
      rw [if_pos (by omega)] at h
      exact Except.noConfusion h
    simp only [marshalValue] at h
    unfold ISCAnalogTransition.marshalBinary at h
    rw [if_neg (by omega)] at h
    injection h with h
    subst h
    refine ⟨?_, ?_, ?_⟩
    · simpa using or_msb _ _ (or_msb 0xc0 _ (by decide))
    · intro _ b hb
      simp at hb
      rcases hb with hb | hb | hb <;> subst hb <;>
        exact lt_128_and_128 _ (land127_lt _)
    · intro t' ht
      simp at ht
  | serial t =>
    have hidx : t.index ≤ 1023 := by
      by_contra hgt
      simp only [marshalValue] at h
      unfold ISCSerialTransition.marshalBinary at h
      rw [if_pos (by omega)] at h
      exact Except.noConfusion h
    have hlen : t.value.length ≤ 252 := by
      by_contra hgt
      simp only [marshalValue] at h
      unfold ISCSerialTransition.marshalBinary at h
      rw [if_neg (by omega), if_pos (by omega)] at h
      exact Except.noConfusion h
    have hnf : ∀ b ∈ t.value, b ≠ 0xFF := by
      intro b hb hbe
      simp only [marshalValue] at h
      unfold ISCSerialTransition.marshalBinary at h
      rw [if_neg (by omega), if_neg (by omega),
        if_pos (by simp only [List.any_eq_true]; exact ⟨b, hb, by simp [hbe]⟩)] at h
      exact Except.noConfusion h
    obtain ⟨b0, b1, hm, _, _, _, _, _, _, hb0m, hb1m, _, _, hlast, _⟩ :=
      serial_roundtrip t hidx hlen hnf
    simp only [marshalValue] at h
    rw [hm] at h
    injection h with h
    subst h
    refine ⟨by simpa using hb0m, ?_, fun t' ht => ⟨by simpa using hb1m, hlast⟩⟩
    intro hd
    rcases hd with ⟨t'', ht⟩ | ⟨t'', ht⟩ <;> simp at ht

theorem isc_c5_first_byte_msb_witness :
    marshalValue (.serial ⟨2, [0x41, 0x42]⟩) = .ok [0xC8, 0x02, 0x41, 0x42, 0xFF] ∧
    (([0xC8, 0x02, 0x41, 0x42, 0xFF] : List Nat).getD 0 0) &&& 0x80 = 0x80 ∧
    ((∃ t, (ISCValue.serial ⟨2, [0x41, 0x42]⟩) = .digital t) ∨
      (∃ t, (ISCValue.serial ⟨2, [0x41, 0x42]⟩) = .analog t) →
      ∀ b ∈ ([0xC8, 0x02, 0x41, 0x42, 0xFF] : List Nat).drop 1, b &&& 0x80 = 0) ∧
    (∀ t, (ISCValue.serial ⟨2, [0x41, 0x42]⟩) = .serial t →
      (([0xC8, 0x02, 0x41, 0x42, 0xFF] : List Nat).getD 1 0) &&& 0x80 = 0 ∧
      ([0xC8, 0x02, 0x41, 0x42, 0xFF] : List Nat).getD
        (([0xC8, 0x02, 0x41, 0x42, 0xFF] : List Nat).length - 1) 0 = 0xFF) :=
  ⟨by decide, isc_c5_first_byte_msb (.serial ⟨2, [0x41, 0x42]⟩)
    [0xC8, 0x02, 0x41, 0x42, 0xFF] (by decide)⟩

/-- C6, counterexample: a 3-byte buffer with a valid serial header but a
final byte that is not 0xFF is rejected with InvalidEncoding
(ErrDecodeIllegal), not with ShortBuffer (ErrDecodeLength) as the claim
states, and this despite the header mask and byte1 MSB conditions holding. -/
theorem isc_c6_terminator_counterexample :
    ISCSerialTransition.unmarshalBinary [0xC8, 0x00, 0x00] = .error .decodeIllegal ∧
    ISCSerialTransition.unmarshalBinary [0xC8, 0x00, 0x00] ≠ .error .decodeLength ∧
    (0xC8 : Nat) &&& 0xF8 = 0xC8 ∧ (0x00 : Nat) &&& 0x80 = 0x00 :=
  ⟨by decide, by decide, by decide, by decide⟩

/-- C6, amended: serial UnmarshalBinary fails with ShortBuffer exactly when
the buffer has fewer than 3 bytes, and fails with InvalidEncoding exactly
when it has at least 3 bytes and either does not end in 0xFF, or the header
bits under mask 0xF8 differ from 0xC8, or byte1's MSB is set. -/
theorem isc_c6_serial_error_characterization (buf : List Nat) :
    (ISCSerialTransition.unmarshalBinary buf = .error .decodeLength ↔
      buf.length < 3) ∧
    (ISCSerialTransition.unmarshalBinary buf = .error .decodeIllegal ↔
      (3 ≤ buf.length ∧ (buf.getD (buf.length - 1) 0 ≠ 0xff ∨
        (buf.getD 0 0) &&& 0xF8 ≠ 0xC8 ∨ (buf.getD 1 0) &&& 0x80 ≠ 0x00))) := by
  unfold ISCSerialTransition.unmarshalBinary
  split_ifs with h1 h2 h3
  · exact ⟨⟨fun _ => h1, fun _ => rfl⟩,
      ⟨fun hc => by simp at hc, fun hc => absurd hc.1 (by omega)⟩⟩
  · exact ⟨⟨fun hc => by simp at hc, fun hc => absurd hc h1⟩,
      ⟨fun _ => ⟨by omega, Or.inl h2⟩, fun _ => rfl⟩⟩
  · refine ⟨⟨fun hc => by simp at hc, fun hc => absurd hc h1⟩,
      ⟨fun _ => ⟨by omega, ?_⟩, fun _ => rfl⟩⟩
    rcases h3 with ha | hb
    · exact Or.inr (Or.inl ha)
    · exact Or.inr (Or.inr hb)
  · push_neg at h2 h3
    refine ⟨⟨fun hc => by simp at hc, fun hc => absurd hc h1⟩,
      ⟨fun hc => by simp at hc, fun hc => ?_⟩⟩
    rcases hc.2 with ha | hb | hb2
    · exact absurd h2 ha
    · exact absurd h3.1 hb
    · exact absurd h3.2 hb2

/-- C9: the stream decoder fed the single byte 0xFC yields ClearOperation
and fed 0xFD yields RefreshOperation; fed a marshalled digital frame it
yields that DigitalTransition consuming exactly its two bytes; and for any
list of valid values whose encodings are concatenated back-to-back, the
successive Decode calls yield the decoded values in order, leaving the
stream empty — each call consuming exactly its own encoding's bytes. -/
theorem isc_c9_stream_discrimination :
    (ISCDecoder.decode ⟨[0xFC], none⟩ = ((some .clear, none), ⟨[], none⟩)) ∧
    (ISCDecoder.decode ⟨[0xFD], none⟩ = ((some .refresh, none), ⟨[], none⟩)) ∧
    (∀ (t : ISCDigitalTransition) (bs rest : List Nat), t.marshalBinary = .ok bs →
      ISCDecoder.decode ⟨bs ++ rest, none⟩ =
        ((some (.digital t), none), ⟨rest, none⟩)) ∧
    (∀ vs : List ISCValue, (∀ v ∈ vs, validValueB v = true) →
      decodeN vs.length ⟨encodeAll vs, none⟩ =
        (vs.map (fun v => (some (decodedValue v), none)), ⟨[], none⟩)) := by
  refine ⟨by decide, by decide, ?_, decode_chain⟩
  intro t bs rest h
  have hidx : t.index ≤ 4095 := by
    by_contra hgt
    unfold ISCDigitalTransition.marshalBinary at h
    rw [if_pos (by omega)] at h
    exact Except.noConfusion h
  have hv : validValueB (.digital t) = true := by
    simp only [validValueB, decide_eq_true_eq]
    omega
  exact decode_step (.digital t) bs rest hv h

theorem isc_c9_stream_discrimination_witness :
    (∀ v ∈ ([.clear, .digital ⟨1, true⟩, .analog ⟨5, 100⟩,
        .serial ⟨2, [0x41, 0x42]⟩, .refresh] : List ISCValue),
      validValueB v = true) ∧
    decodeN 5 ⟨encodeAll [.clear, .digital ⟨1, true⟩, .analog ⟨5, 100⟩,
        .serial ⟨2, [0x41, 0x42]⟩, .refresh], none⟩ =
      ([(some .clear, none), (some (.digital ⟨1, true⟩), none),
        (some (.analog ⟨5, 100⟩), none),
        (some (.serial ⟨2, [0x41, 0x42]⟩), none), (some .refresh, none)],
        ⟨[], none⟩) :=
  ⟨by decide, isc_c9_stream_discrimination.2.2.2
    [.clear, .digital ⟨1, true⟩, .analog ⟨5, 100⟩,
      .serial ⟨2, [0x41, 0x42]⟩, .refresh] (by decide)⟩

end Avcompat
